import Mathlib

/-!
Verification of the manifolio bet-sizing core against its specification.

The development shallowly embeds the two source files over exact rational
arithmetic (`ℚ`):

* `src/unnamed/part_000` (the probability module): JavaScript `Map`s become
  association lists (`List (ℚ × ℚ)`) with JavaScript `Map.set` semantics
  (update the first matching key in place, otherwise append).
* `src/manifolio-ui/lib/calculate.ts`: the external collaborators
  (`fetchMarketCached`/`getMarket` and `getBinaryCpmmBetInfoWrapper`) and the
  `Math.sqrt` builtin are modelled as an explicit environment (`MarketEnv`);
  `async` functions are modelled as pure functions, and JavaScript numeric
  literals become the corresponding rationals.
-/

set_option maxHeartbeats 2000000
set_option maxRecDepth 200000

namespace Manifolio

/-! ## Probability module (src/unnamed/part_000) -/

/-- `PositionModel` from the source: pays `payout` with probability
`probability`, else 0.  The optional `loan` field is carried for fidelity with
the source type; it is never read by any of the embedded functions. -/
structure PositionModel where
  probability : ℚ
  payout : ℚ
  loan : Option ℚ := none
  deriving DecidableEq

/-- A JavaScript `Map<number, number>` used as a PMF, embedded as an
association list in insertion order. -/
abbrev PMF := List (ℚ × ℚ)

/-- `Map.get`: value of the first entry with the given key, if any. -/
def mapGet (m : PMF) (k : ℚ) : Option ℚ :=
  match m with
  | [] => none
  | (a, v) :: rest => if a = k then some v else mapGet rest k

/-- `Map.set`: replace the value at an existing key in place, otherwise append
the new entry at the end (JavaScript `Map` insertion-order semantics). -/
def mapSet (m : PMF) (k v : ℚ) : PMF :=
  match m with
  | [] => [(k, v)]
  | (a, w) :: rest => if a = k then (a, v) :: rest else (a, w) :: mapSet rest k v

/-- `m.get(k) || 0`, the defaulted read used by the accumulation loops. -/
def mapGetD (m : PMF) (k : ℚ) : ℚ :=
  (mapGet m k).getD 0

/-- One accumulation step `result.set(k, (result.get(k) || 0) + v)`. -/
def addTo (m : PMF) (k v : ℚ) : PMF :=
  mapSet m k (mapGetD m k + v)

/-- `convolveDistributions` from the source: nested loops over the two maps,
accumulating mass at each combined payout. -/
def convolveDistributions (pmf1 pmf2 : PMF) : PMF :=
  pmf1.foldl
    (fun result p1 =>
      pmf2.foldl
        (fun result p2 => addTo result (p1.1 + p2.1) (p1.2 * p2.2))
        result)
    []

/-- `cartesianProduct` from the source, specialised to the element type it is
used at.  `reduce` with initial value `[[]]`; each step extends every
accumulated combination by every entry of the next list. -/
def cartesianProduct {α : Type} (allEntries : List (List α)) : List (List α) :=
  allEntries.foldl
    (fun results entries =>
      results.flatMap (fun result => entries.map (fun entry => result ++ [entry])))
    [[]]

/-- A branch of a single bet inside the cartesian enumeration, written as
`(payout, probability)`. -/
abbrev Branch := ℚ × ℚ

/-- The two branches `[{payout: 0, probability: 1-p}, {payout, probability: p}]`
contributed by one bet to the cartesian enumeration. -/
def betBranches (bet : PositionModel) : List Branch :=
  [(0, 1 - bet.probability), (bet.payout, bet.probability)]

/-- Total payout of one enumerated combination (`reduce` with `+`, init 0). -/
def comboPayout (outcome : List Branch) : ℚ :=
  outcome.foldl (fun acc b => acc + b.1) 0

/-- Total probability of one enumerated combination (`reduce` with `*`, init 1). -/
def comboProb (outcome : List Branch) : ℚ :=
  outcome.foldl (fun acc b => acc * b.2) 1

/-- `computePayoutPMFCartesian` from the source. -/
def computePayoutPMFCartesian (bets : List PositionModel) : PMF :=
  let outcomes := cartesianProduct (bets.map betBranches)
  let outcomeProbsAndPayouts := outcomes.map (fun o => (comboPayout o, comboProb o))
  outcomeProbsAndPayouts.foldl (fun m o => addTo m o.1 o.2) []

/-- The two-point map `new Map([[0, 1 - p], [payout, p]])` built for one bet by
the convolution method.  Note that the `Map` constructor inserts the entries in
order, so a bet with `payout = 0` collapses to the single entry `[(0, p)]`. -/
def betTwoPointMap (bet : PositionModel) : PMF :=
  mapSet (mapSet [] 0 (1 - bet.probability)) bet.payout bet.probability

/-- `computePayoutPMFConvolution` from the source: fold `convolveDistributions`
over the bets, starting from the degenerate map `new Map([[0, 1]])`. -/
def computePayoutPMFConvolution (bets : List PositionModel) : PMF :=
  bets.foldl
    (fun combinedDistribution bet =>
      convolveDistributions combinedDistribution (betTwoPointMap bet))
    (mapSet [] 0 1)

/-- The `method` argument of `computePayoutDistribution`. -/
inductive PmfMethod
  | convolution
  | cartesian
  deriving DecidableEq

/-- `computePayoutDistribution` from the source. -/
def computePayoutDistribution (bets : List PositionModel) (method : PmfMethod) : PMF :=
  match method with
  | .convolution => computePayoutPMFConvolution bets
  | .cartesian => computePayoutPMFCartesian bets

/-- `integrateOverPmf` from the source: `Σ f(payout) * prob` over the entries. -/
def integrateOverPmf (f : ℚ → ℚ) (pmf : PMF) : ℚ :=
  pmf.foldl (fun result p => result + f p.1 * p.2) 0

/-- Sum of the probability masses stored in a PMF. -/
def pmfMassSum (m : PMF) : ℚ :=
  (m.map Prod.snd).sum

/-- The list of keys of a PMF, in insertion order. -/
def pmfKeys (m : PMF) : List ℚ :=
  m.map Prod.fst

/-- Well-formedness of an embedded JavaScript `Map`: its keys are pairwise
distinct.  Every map built by `mapSet` from the empty map satisfies this. -/
def WFpmf (m : PMF) : Prop :=
  (pmfKeys m).Nodup

/-- Rational-valued sum of a function over a list; insulates the development
from the shape of `List.sum` lemmas. -/
def qsum {α : Type} (l : List α) (f : α → ℚ) : ℚ :=
  (l.map f).sum

/-- Reference semantics of a list of independent positions: the expected value
of `g` applied to the total payout, where each position independently pays
`payout` with probability `probability` and 0 otherwise. -/
def expectPayout (bets : List PositionModel) (g : ℚ → ℚ) : ℚ :=
  match bets with
  | [] => g 0
  | b :: bs =>
    (1 - b.probability) * expectPayout bs g +
      b.probability * expectPayout bs (fun x => g (b.payout + x))

/-- All achievable total payouts of a list of positions (with multiplicity):
the subset sums of the payouts. -/
def payoutSums (bets : List PositionModel) : List ℚ :=
  match bets with
  | [] => [0]
  | b :: bs => payoutSums bs ++ (payoutSums bs).map (fun s => b.payout + s)

/-! ## calculate.ts -/

/-- The `Outcome` type: the side of the binary market being bought. -/
inductive Outcome
  | YES
  | NO
  deriving DecidableEq

/-- The full bet recommendation `{amount, outcome, shares, pAfter}`. -/
structure BetRecommendationFull where
  amount : ℚ
  outcome : Outcome
  shares : ℚ
  pAfter : ℚ
  deriving DecidableEq

/-- The three odds representations accepted by `convertOdds`. -/
inductive OddsType
  | decimalOdds
  | englishOdds
  | impliedProbability
  deriving DecidableEq

/-- `convertOdds` from the source.  The `from`/`to` parameters are named
`src`/`tgt` because `from` is a Lean keyword.  The `default: throw` branches of
the source switches are unreachable for the typed `OddsType`. -/
def convertOdds (src tgt : OddsType) (value : ℚ) : ℚ :=
  if src = tgt then value
  else
    let decimalOdds :=
      match src with
      | .decimalOdds => value
      | .englishOdds => value + 1
      | .impliedProbability => 1 / value
    match tgt with
    | .decimalOdds => decimalOdds
    | .englishOdds => decimalOdds - 1
    | .impliedProbability => 1 / decimalOdds

/-- `calculateNaiveKellyFraction` from the source, returning
`(fraction, outcome)`. -/
def calculateNaiveKellyFraction (marketProb estimatedProb deferenceFactor : ℚ) :
    ℚ × Outcome :=
  let outcome := if estimatedProb > marketProb then Outcome.YES else Outcome.NO
  let fraction := deferenceFactor * (|estimatedProb - marketProb| / (1 - marketProb))
  let clampedFraction := min (max fraction 0) 1
  (clampedFraction, outcome)

/-- `calculateNaiveKellyBet` from the source, returning `(amount, outcome)`. -/
def calculateNaiveKellyBet (marketProb estimatedProb deferenceFactor bankroll : ℚ) :
    ℚ × Outcome :=
  let r := calculateNaiveKellyFraction marketProb estimatedProb deferenceFactor
  (bankroll * r.1, r.2)

/-- The numerical differentiator `D` from the source: central difference with
step `h` (the source default `h = 1e-3` is always passed explicitly here). -/
def D (f : ℚ → ℚ) (x h : ℚ) : ℚ :=
  (f (x + h) - f (x - h)) / (2 * h)

/-- The loop body of `findRoot`, with the remaining iteration count as fuel.
Each iteration takes a Newton step, clamps it to `[lowerBound, upperBound]` if
it falls outside, returns early if the clamped step moved less than
`tolerance`, and otherwise continues from the clamped point. -/
def findRootGo (f : ℚ → ℚ) (lowerBound upperBound tolerance : ℚ) :
    ℕ → ℚ → ℚ
  | 0, x => x
  | n + 1, x =>
    let fx := f x
    let dfx := D f x (1 / 1000)
    let xNext := x - fx / dfx
    let xClamped :=
      if xNext < lowerBound ∨ xNext > upperBound then
        if xNext < lowerBound then lowerBound else upperBound
      else xNext
    if |xClamped - x| < tolerance then xClamped
    else findRootGo f lowerBound upperBound tolerance n xClamped

/-- `findRoot` from the source (the source defaults `iterations = 10`,
`tolerance = 1e-6` are always passed explicitly here).  Starts from the bound
midpoint. -/
def findRoot (f : ℚ → ℚ) (lowerBound upperBound : ℚ) (iterations : ℕ)
    (tolerance : ℚ) : ℚ :=
  findRootGo f lowerBound upperBound tolerance iterations ((lowerBound + upperBound) / 2)

/-- Result of one call to the external AMM simulator
`getBinaryCpmmBetInfoWrapper`: the shares the hypothetical trade would yield
and the post-trade market probability (possibly absent). -/
structure BetInfo where
  newShares : ℚ
  probAfter : Option ℚ

/-- The environment of external collaborators of `calculate.ts` for a fixed
market slug: the fetched market probability (`(await market.getMarket())?.probability`,
`none` when unavailable), the AMM bet simulator, and a model of the `Math.sqrt`
builtin (exact real square root is not computable on `ℚ`; every theorem below
either quantifies over `sqrtFn` or never reaches it). -/
structure MarketEnv where
  marketProb : Option ℚ
  betInfo : Outcome → ℚ → BetInfo
  sqrtFn : ℚ → ℚ

/-- The inner `englishOdds` closure: `(newShares - betEstimate) / betEstimate`
for the simulated trade. -/
def englishOddsFn (env : MarketEnv) (outcome : Outcome) (betEstimate : ℚ) : ℚ :=
  ((env.betInfo outcome betEstimate).newShares - betEstimate) / betEstimate

/-- The blended win probability: `pYes = estimatedProb * deferenceFactor +
(1 - deferenceFactor) * startingMarketProb`, and `pWin` is `pYes` for YES and
`1 - pYes` for NO. -/
def pWinOf (outcome : Outcome) (estimatedProb deferenceFactor startingMarketProb : ℚ) : ℚ :=
  let pYes := estimatedProb * deferenceFactor + (1 - deferenceFactor) * startingMarketProb
  match outcome with
  | .YES => pYes
  | .NO => 1 - pYes

/-- The quadratic-substitution residual shared by `calcBetEstimate` (in
`calculateFullKellyBet`) and `dEVdBetBalanceOnly` (in the portfolio variant):
solve `A f² + B f + C = 0` for the bankroll fraction `f` and return
`f * bankroll - betEstimate`. -/
def quadraticResidual (env : MarketEnv) (outcome : Outcome)
    (estimatedProb deferenceFactor startingMarketProb bankroll betEstimate : ℚ) : ℚ :=
  let englishOddsEstimate := englishOddsFn env outcome betEstimate
  let englishOddsDerivative := D (englishOddsFn env outcome) betEstimate (1 / 10)
  let pWin := pWinOf outcome estimatedProb deferenceFactor startingMarketProb
  let qWin := 1 - pWin
  let A := pWin * bankroll * englishOddsDerivative
  let B := englishOddsEstimate - A
  let C := -(pWin * englishOddsEstimate - qWin)
  let f := if A = 0 then -C / B else (-B + env.sqrtFn (B * B - 4 * A * C)) / (2 * A)
  let newBetEstimate := f * bankroll
  newBetEstimate - betEstimate

/-- `calculateFullKellyBet` from the source.  The falsy guard
`if (!startingMarketProb)` fires when the probability is absent or exactly 0. -/
def calculateFullKellyBet (env : MarketEnv)
    (estimatedProb deferenceFactor bankroll : ℚ) : BetRecommendationFull :=
  match env.marketProb with
  | none => ⟨0, .YES, 0, 0⟩
  | some startingMarketProb =>
    if startingMarketProb = 0 then ⟨0, .YES, 0, 0⟩
    else
      let nk := calculateNaiveKellyBet startingMarketProb estimatedProb deferenceFactor bankroll
      let naiveKellyAmount := nk.1
      let outcome := nk.2
      let lowerBound : ℚ := 0
      let upperBound := naiveKellyAmount
      let optimalBet :=
        findRoot
          (quadraticResidual env outcome estimatedProb deferenceFactor startingMarketProb bankroll)
          lowerBound upperBound 10 (1 / 1000000)
      let info := env.betInfo outcome optimalBet
      ⟨optimalBet, outcome, info.newShares, info.probAfter.getD 0⟩

/-- The hard-coded illiquid expected value of the portfolio variant
(`const illiquidEV = 1000`). -/
def illiquidEV : ℚ := 1000

/-- `relativeIlliquidEV = illiquidEV / balance`. -/
def relativeIlliquidEV (balance : ℚ) : ℚ :=
  illiquidEV / balance

/-- The synthetic illiquid position list
`[{ probability: 0.5, payout: relativeIlliquidEV * (1 / 0.5) }]`. -/
def illiquidBets (balance : ℚ) : List PositionModel :=
  [{ probability := 1 / 2, payout := relativeIlliquidEV balance * (1 / (1 / 2)) }]

/-- `illiquidPmf = computePayoutDistribution(bets, "cartesian")`. -/
def illiquidPmf (balance : ℚ) : PMF :=
  computePayoutDistribution (illiquidBets balance) .cartesian

/-- The marginal-EV integrand `A + B + C` shared by `dEVdBetIlliquidCashedOut`
and the integrand of `dEVdBet`, parametrised by the illiquid payout `I`. -/
def dEVIntegrand (pWin qWin englishOddsEstimate englishOddsDerivative balance f I : ℚ) : ℚ :=
  let A := pWin * englishOddsEstimate / (1 + I + f * englishOddsEstimate)
  let B := -qWin / (1 + I - f)
  let C := pWin * f * englishOddsDerivative * balance / (1 + I + f * englishOddsEstimate)
  A + B + C

/-- `dEVdBetBalanceOnly` from the portfolio optimizer: the same quadratic
residual as `calculateFullKellyBet`, with the liquid balance as bankroll. -/
def dEVdBetBalanceOnly (env : MarketEnv) (outcome : Outcome)
    (estimatedProb deferenceFactor startingMarketProb balance betEstimate : ℚ) : ℚ :=
  quadraticResidual env outcome estimatedProb deferenceFactor startingMarketProb balance betEstimate

/-- `dEVdBetIlliquidCashedOut` from the portfolio optimizer: the marginal-EV
integrand evaluated at the certain illiquid payout `I = relativeIlliquidEV`. -/
def dEVdBetIlliquidCashedOut (env : MarketEnv) (outcome : Outcome)
    (estimatedProb deferenceFactor startingMarketProb balance betEstimate : ℚ) : ℚ :=
  let englishOddsEstimate := englishOddsFn env outcome betEstimate
  let englishOddsDerivative := D (englishOddsFn env outcome) betEstimate (1 / 10)
  let pWin := pWinOf outcome estimatedProb deferenceFactor startingMarketProb
  let qWin := 1 - pWin
  let f := betEstimate / balance
  dEVIntegrand pWin qWin englishOddsEstimate englishOddsDerivative balance f
    (relativeIlliquidEV balance)

/-- `dEVdBet` from the portfolio optimizer: the marginal-EV integrand
integrated over the illiquid payout PMF. -/
def dEVdBet (env : MarketEnv) (outcome : Outcome)
    (estimatedProb deferenceFactor startingMarketProb balance betEstimate : ℚ) : ℚ :=
  let englishOddsEstimate := englishOddsFn env outcome betEstimate
  let englishOddsDerivative := D (englishOddsFn env outcome) betEstimate (1 / 10)
  let pWin := pWinOf outcome estimatedProb deferenceFactor startingMarketProb
  let qWin := 1 - pWin
  let f := betEstimate / balance
  integrateOverPmf
    (fun I => dEVIntegrand pWin qWin englishOddsEstimate englishOddsDerivative balance f I)
    (illiquidPmf balance)

/-- `optimalBetInitial`: root of the balance-only residual over
`[0, naiveKellyAmount]`. -/
def optimalBetInitial (env : MarketEnv)
    (estimatedProb deferenceFactor startingMarketProb balance : ℚ) : ℚ :=
  let nk := calculateNaiveKellyBet startingMarketProb estimatedProb deferenceFactor balance
  findRoot (dEVdBetBalanceOnly env nk.2 estimatedProb deferenceFactor startingMarketProb balance)
    0 nk.1 10 (1 / 1000000)

/-- `optimalBet`: root of the true integrated residual over
`[optimalBetInitial * 0.5, optimalBetInitial * 2]`. -/
def optimalBet (env : MarketEnv)
    (estimatedProb deferenceFactor startingMarketProb balance : ℚ) : ℚ :=
  let nk := calculateNaiveKellyBet startingMarketProb estimatedProb deferenceFactor balance
  let init := optimalBetInitial env estimatedProb deferenceFactor startingMarketProb balance
  findRoot (dEVdBet env nk.2 estimatedProb deferenceFactor startingMarketProb balance)
    (init * (1 / 2)) (init * 2) 10 (1 / 1000000)

/-- `optimalBetHigh`: root of the illiquid-cashed-out residual over
`[optimalBetInitial * 0.5, optimalBetInitial * 2]`. -/
def optimalBetHigh (env : MarketEnv)
    (estimatedProb deferenceFactor startingMarketProb balance : ℚ) : ℚ :=
  let nk := calculateNaiveKellyBet startingMarketProb estimatedProb deferenceFactor balance
  let init := optimalBetInitial env estimatedProb deferenceFactor startingMarketProb balance
  findRoot (dEVdBetIlliquidCashedOut env nk.2 estimatedProb deferenceFactor startingMarketProb balance)
    (init * (1 / 2)) (init * 2) 10 (1 / 1000000)

/-- `calculateFullKellyBetWithPortfolio` from the source.  The `portfolioValue`
argument is accepted but never read (the illiquid EV is the hard-coded
constant 1000); the returned amount is the root `optimalBet` of the true
integrated residual. -/
def calculateFullKellyBetWithPortfolio (env : MarketEnv)
    (estimatedProb deferenceFactor balance portfolioValue : ℚ) : BetRecommendationFull :=
  match env.marketProb with
  | none => ⟨0, .YES, 0, 0⟩
  | some startingMarketProb =>
    if startingMarketProb = 0 then ⟨0, .YES, 0, 0⟩
    else
      let nk := calculateNaiveKellyBet startingMarketProb estimatedProb deferenceFactor balance
      let outcome := nk.2
      let amount := optimalBet env estimatedProb deferenceFactor startingMarketProb balance
      let info := env.betInfo outcome amount
      ⟨amount, outcome, info.newShares, info.probAfter.getD 0⟩

/-! ## Concrete environments used by witnesses and counterexamples -/

/-- An environment whose market probability is unavailable. -/
def noProbEnv : MarketEnv :=
  ⟨none, fun _ b => ⟨2 * b, none⟩, fun _ => 0⟩

/-- An environment whose fetched market probability is present but exactly 0. -/
def zeroProbEnv : MarketEnv :=
  ⟨some 0, fun _ b => ⟨2 * b, none⟩, fun _ => 0⟩

/-- A monotonically worsening English-odds curve with three liquidity cliffs:
the marginal odds fall from 4 to 3.95 to 3.9 to 3.8 as the bet size crosses
the three thresholds.  At small bets the odds 4 are consistent with the
market probability 1/5. -/
def cexOdds (b : ℚ) : ℚ :=
  if b < 229427165 / 1000 then 4
  else if b < 229427477 / 1000 then 79 / 20
  else if b < 3076923 / 10 then 39 / 10
  else 19 / 5

/-- The AMM simulator for the C1 counterexample: a bet of `b` yields
`b * (1 + cexOdds b)` shares, so the English odds of the trade are exactly
`cexOdds b`. -/
def cexBetInfo (outcome : Outcome) (b : ℚ) : BetInfo :=
  ⟨b * (1 + cexOdds b), some (1 / 4)⟩

/-- The C1 counterexample environment: market probability 1/5, the cliffed AMM
above.  Every evaluation of the quadratic residual in this scenario has a
numerically zero odds derivative (`A = 0`), so the `Math.sqrt` branch is never
taken and the `sqrtFn` model is irrelevant; it is instantiated as the zero
function. -/
def cexEnv : MarketEnv :=
  ⟨some (1 / 5), cexBetInfo, fun _ => 0⟩

end Manifolio

namespace Manifolio

/-! ## Generic sum and map lemmas (shared helpers) -/

theorem qsum_nil {α : Type} (f : α → ℚ) : qsum ([] : List α) f = 0 := rfl

theorem qsum_cons {α : Type} (a : α) (l : List α) (f : α → ℚ) :
    qsum (a :: l) f = f a + qsum l f := by
  simp [qsum]

theorem qsum_append {α : Type} (l1 l2 : List α) (f : α → ℚ) :
    qsum (l1 ++ l2) f = qsum l1 f + qsum l2 f := by
  simp [qsum]

theorem qsum_map {α β : Type} (h : α → β) (l : List α) (f : β → ℚ) :
    qsum (l.map h) f = qsum l (fun a => f (h a)) := by
  simp [qsum, List.map_map, Function.comp_def]

theorem qsum_congr {α : Type} {l : List α} {f g : α → ℚ}
    (h : ∀ a ∈ l, f a = g a) : qsum l f = qsum l g := by
  induction l with
  | nil => rfl
  | cons a l ih =>
    rw [qsum_cons, qsum_cons, h a (List.mem_cons_self a l),
      ih fun x hx => h x (List.mem_cons_of_mem a hx)]

theorem qsum_flatMap {α β : Type} (l : List α) (h : α → List β) (f : β → ℚ) :
    qsum (l.flatMap h) f = qsum l (fun a => qsum (h a) f) := by
  induction l with
  | nil => rfl
  | cons a l ih => rw [List.flatMap_cons, qsum_append, qsum_cons, ih]

theorem foldl_add_eq_qsum {α : Type} (f : α → ℚ) (l : List α) :
    ∀ init : ℚ, List.foldl (fun r p => r + f p) init l = init + qsum l f := by
  induction l with
  | nil => intro init; simp [qsum_nil]
  | cons a l ih => intro init; rw [List.foldl_cons, ih, qsum_cons]; ring

theorem mapGet_mapSet_self (m : PMF) (k v : ℚ) :
    mapGet (mapSet m k v) k = some v := by
  induction m with
  | nil => simp [mapGet, mapSet]
  | cons p rest ih =>
    by_cases h : p.1 = k
    · simp [mapGet, mapSet, h]
    · simp [mapGet, mapSet, h, ih]

theorem mapGet_mapSet_ne (m : PMF) (k v k' : ℚ) (h : k' ≠ k) :
    mapGet (mapSet m k v) k' = mapGet m k' := by
  have hkk : ¬ (k = k') := fun hh => h hh.symm
  induction m with
  | nil => simp only [mapSet, mapGet, if_neg hkk]
  | cons p rest ih =>
    by_cases hp : p.1 = k
    · have hpk : ¬ (p.1 = k') := by rw [hp]; exact hkk
      simp only [mapSet, mapGet, if_pos hp, if_neg hpk, if_neg hkk]
    · by_cases hp' : p.1 = k'
      · simp only [mapSet, mapGet, if_neg hp, if_pos hp']
      · simp only [mapSet, mapGet, if_neg hp, if_neg hp', ih]

theorem pmfKeys_mapSet (m : PMF) (k v : ℚ) :
    pmfKeys (mapSet m k v) =
      if k ∈ pmfKeys m then pmfKeys m else pmfKeys m ++ [k] := by
  induction m with
  | nil => simp [pmfKeys, mapSet]
  | cons p rest ih =>
    by_cases h : p.1 = k
    · simp [pmfKeys, mapSet, h]
    · have hne : ¬ k = p.1 := fun hh => h hh.symm
      by_cases hk : k ∈ pmfKeys rest
      · simp only [pmfKeys, mapSet, if_neg h, List.map_cons]
        simp only [pmfKeys] at ih hk
        simp [ih, hk, hne]
      · simp only [pmfKeys, mapSet, if_neg h, List.map_cons]
        simp only [pmfKeys] at ih hk
        simp [ih, hk, hne]

theorem WFpmf_mapSet (m : PMF) (k v : ℚ) (h : WFpmf m) : WFpmf (mapSet m k v) := by
  unfold WFpmf at h ⊢
  rw [pmfKeys_mapSet]
  by_cases hk : k ∈ pmfKeys m
  · simpa [hk] using h
  · simp only [if_neg hk]
    refine List.Nodup.append h (List.nodup_singleton k) ?_
    intro a ha hb
    simp only [List.mem_singleton] at hb
    exact hk (hb ▸ ha)

theorem WFpmf_addTo (m : PMF) (k v : ℚ) (h : WFpmf m) : WFpmf (addTo m k v) :=
  WFpmf_mapSet m k _ h

theorem mapGet_isSome_iff_mem (m : PMF) (k : ℚ) :
    (mapGet m k).isSome ↔ k ∈ pmfKeys m := by
  induction m with
  | nil => simp [mapGet, pmfKeys]
  | cons p rest ih =>
    by_cases h : p.1 = k
    · simp [mapGet, pmfKeys, h]
    · have hne : ¬ k = p.1 := fun hh => h hh.symm
      simp only [mapGet, pmfKeys, List.map_cons, List.mem_cons, if_neg h]
      simp only [pmfKeys] at ih
      rw [ih]
      constructor
      · exact Or.inr
      · rintro (hh | hh)
        · exact absurd hh hne
        · exact hh

theorem mem_pmfKeys_addTo (m : PMF) (k v k' : ℚ) :
    k' ∈ pmfKeys (addTo m k v) ↔ k' ∈ pmfKeys m ∨ k' = k := by
  unfold addTo
  rw [pmfKeys_mapSet]
  by_cases hk : k ∈ pmfKeys m
  · simp only [if_pos hk]
    constructor
    · exact Or.inl
    · rintro (h | h)
      · exact h
      · exact h ▸ hk
  · simp [if_neg hk]

/-! ## Integration lemmas -/

theorem integrateOverPmf_eq_qsum (g : ℚ → ℚ) (m : PMF) :
    integrateOverPmf g m = qsum m (fun p => g p.1 * p.2) := by
  unfold integrateOverPmf
  rw [foldl_add_eq_qsum, zero_add]

theorem integrateOverPmf_addTo (g : ℚ → ℚ) (m : PMF) (k v : ℚ) :
    integrateOverPmf g (addTo m k v) = integrateOverPmf g m + g k * v := by
  induction m with
  | nil =>
    simp [integrateOverPmf_eq_qsum, addTo, mapSet, mapGetD, mapGet, qsum_cons, qsum_nil]
  | cons p rest ih =>
    by_cases h : p.1 = k
    · simp only [addTo, mapGetD, mapGet, mapSet, if_pos h] at *
      simp only [integrateOverPmf_eq_qsum, qsum_cons] at *
      rw [h]
      simp only [Option.getD_some]
      ring
    · have hne : ¬ k = p.1 := fun hh => h hh.symm
      simp only [addTo, mapGetD, mapGet, mapSet, if_neg h, if_neg hne] at *
      simp only [integrateOverPmf_eq_qsum, qsum_cons] at *
      rw [ih]
      ring

theorem integrateOverPmf_ind_of_not_mem (m : PMF) (k : ℚ) (h : k ∉ pmfKeys m) :
    integrateOverPmf (fun a => if a = k then 1 else 0) m = 0 := by
  induction m with
  | nil => rfl
  | cons p rest ih =>
    simp only [pmfKeys, List.map_cons, List.mem_cons, not_or] at h
    simp only [integrateOverPmf_eq_qsum, qsum_cons] at *
    have : ¬ p.1 = k := fun hh => h.1 hh.symm
    rw [if_neg this]
    simp only [pmfKeys] at ih
    rw [ih h.2]
    ring

theorem mapGetD_eq_integrate_ind (m : PMF) (k : ℚ) (h : WFpmf m) :
    mapGetD m k = integrateOverPmf (fun a => if a = k then 1 else 0) m := by
  induction m with
  | nil => rfl
  | cons p rest ih =>
    unfold WFpmf pmfKeys at h
    simp only [List.map_cons, List.nodup_cons] at h
    by_cases hk : p.1 = k
    · subst hk
      have h0 : integrateOverPmf (fun a => if a = p.1 then 1 else 0) rest = 0 :=
        integrateOverPmf_ind_of_not_mem rest p.1 h.1
      rw [integrateOverPmf_eq_qsum] at h0
      have hget : mapGet (p :: rest) p.1 = some p.2 := by simp [mapGet]
      rw [mapGetD, hget, Option.getD_some, integrateOverPmf_eq_qsum, qsum_cons, h0]
      simp
    · have hne : ¬ k = p.1 := fun hh => hk hh.symm
      simp only [mapGetD, mapGet, if_neg hk]
      simp only [integrateOverPmf_eq_qsum, qsum_cons, if_neg hk]
      have := ih h.2
      simp only [mapGetD, integrateOverPmf_eq_qsum] at this
      rw [← this]
      ring

/-! ## Characterization of the two PMF constructions -/

theorem integrateOverPmf_convolve_inner (g : ℚ → ℚ) (p1 : ℚ × ℚ) (m2 : PMF) :
    ∀ acc : PMF,
      integrateOverPmf g
          (m2.foldl (fun result p2 => addTo result (p1.1 + p2.1) (p1.2 * p2.2)) acc) =
        integrateOverPmf g acc + qsum m2 (fun p2 => g (p1.1 + p2.1) * (p1.2 * p2.2)) := by
  induction m2 with
  | nil => intro acc; simp [qsum_nil]
  | cons p2 rest ih =>
    intro acc
    rw [List.foldl_cons, ih, integrateOverPmf_addTo, qsum_cons]
    ring

theorem integrateOverPmf_convolve_fold (g : ℚ → ℚ) (m2 : PMF) (m1 : PMF) :
    ∀ acc : PMF,
      integrateOverPmf g
          (m1.foldl
            (fun result p1 =>
              m2.foldl (fun result p2 => addTo result (p1.1 + p2.1) (p1.2 * p2.2)) result)
            acc) =
        integrateOverPmf g acc +
          qsum m1 (fun p1 => qsum m2 (fun p2 => g (p1.1 + p2.1) * (p1.2 * p2.2))) := by
  induction m1 with
  | nil => intro acc; simp [qsum_nil]
  | cons p1 rest ih =>
    intro acc
    rw [List.foldl_cons, ih, integrateOverPmf_convolve_inner, qsum_cons]
    ring

theorem integrateOverPmf_convolve (g : ℚ → ℚ) (m1 m2 : PMF) :
    integrateOverPmf g (convolveDistributions m1 m2) =
      qsum m1 (fun p1 => qsum m2 (fun p2 => g (p1.1 + p2.1) * (p1.2 * p2.2))) := by
  unfold convolveDistributions
  rw [integrateOverPmf_convolve_fold]
  simp [integrateOverPmf]

theorem integrateOverPmf_cart_fold (g : ℚ → ℚ) (l : List (ℚ × ℚ)) :
    ∀ acc : PMF,
      integrateOverPmf g (l.foldl (fun m o => addTo m o.1 o.2) acc) =
        integrateOverPmf g acc + qsum l (fun o => g o.1 * o.2) := by
  induction l with
  | nil => intro acc; simp [qsum_nil]
  | cons o rest ih =>
    intro acc
    rw [List.foldl_cons, ih, integrateOverPmf_addTo, qsum_cons]
    ring

theorem WFpmf_nil : WFpmf ([] : PMF) := List.nodup_nil

theorem WFpmf_foldl_addTo {α : Type} (key val : α → ℚ) (l : List α) :
    ∀ acc : PMF, WFpmf acc → WFpmf (l.foldl (fun m o => addTo m (key o) (val o)) acc) := by
  induction l with
  | nil => exact fun acc h => h
  | cons a l ih =>
    intro acc h
    rw [List.foldl_cons]
    exact ih _ (WFpmf_addTo _ _ _ h)

theorem WFpmf_convolve (m1 m2 : PMF) : WFpmf (convolveDistributions m1 m2) := by
  unfold convolveDistributions
  suffices h : ∀ acc : PMF, WFpmf acc →
      WFpmf (m1.foldl
        (fun result p1 =>
          m2.foldl (fun result p2 => addTo result (p1.1 + p2.1) (p1.2 * p2.2)) result)
        acc) from h [] WFpmf_nil
  induction m1 with
  | nil => exact fun acc h => h
  | cons p1 rest ih =>
    intro acc h
    rw [List.foldl_cons]
    exact ih _ (WFpmf_foldl_addTo (fun p2 => p1.1 + p2.1) (fun p2 => p1.2 * p2.2) m2 acc h)

theorem WFpmf_cartesian (bets : List PositionModel) :
    WFpmf (computePayoutPMFCartesian bets) := by
  unfold computePayoutPMFCartesian
  exact WFpmf_foldl_addTo Prod.fst Prod.snd _ [] WFpmf_nil

theorem WFpmf_convolution (bets : List PositionModel) :
    WFpmf (computePayoutPMFConvolution bets) := by
  unfold computePayoutPMFConvolution
  suffices h : ∀ acc : PMF, WFpmf acc →
      WFpmf (bets.foldl (fun c b => convolveDistributions c (betTwoPointMap b)) acc) from
    h _ (WFpmf_mapSet [] 0 1 WFpmf_nil)
  induction bets with
  | nil => exact fun acc h => h
  | cons b bs ih =>
    intro acc _
    rw [List.foldl_cons]
    exact ih _ (WFpmf_convolve _ _)

theorem comboPayout_append (c : List Branch) (e : Branch) :
    comboPayout (c ++ [e]) = comboPayout c + e.1 := by
  unfold comboPayout
  rw [List.foldl_append]
  rfl

theorem comboProb_append (c : List Branch) (e : Branch) :
    comboProb (c ++ [e]) = comboProb c * e.2 := by
  unfold comboProb
  rw [List.foldl_append]
  rfl

theorem qsum_cartFold (g : ℚ → ℚ) (bets : List PositionModel) :
    ∀ acc : List (List Branch),
      qsum
          (bets.foldl
            (fun results bet =>
              results.flatMap (fun result => (betBranches bet).map (fun entry => result ++ [entry])))
            acc)
          (fun o => g (comboPayout o) * comboProb o) =
        qsum acc (fun c => comboProb c * expectPayout bets (fun x => g (comboPayout c + x))) := by
  induction bets with
  | nil =>
    intro acc
    rw [List.foldl_nil]
    refine qsum_congr ?_
    intro c _
    simp only [expectPayout, add_zero]
    ring
  | cons b bs ih =>
    intro acc
    rw [List.foldl_cons, ih, qsum_flatMap]
    refine qsum_congr ?_
    intro c _
    rw [qsum_map]
    simp only [betBranches, qsum_cons, qsum_nil, comboPayout_append, comboProb_append,
      expectPayout]
    simp only [add_assoc, add_zero]
    ring

theorem integrateOverPmf_cartesian (g : ℚ → ℚ) (bets : List PositionModel) :
    integrateOverPmf g (computePayoutPMFCartesian bets) = expectPayout bets g := by
  simp only [computePayoutPMFCartesian, cartesianProduct]
  rw [integrateOverPmf_cart_fold, qsum_map]
  simp only [List.foldl_map]
  rw [qsum_cartFold]
  simp only [qsum_cons, qsum_nil, comboProb, comboPayout, List.foldl_nil]
  simp only [integrateOverPmf, List.foldl_nil, zero_add, one_mul, add_zero]

theorem betTwoPointMap_of_payout_ne (b : PositionModel) (h : b.payout ≠ 0) :
    betTwoPointMap b = [(0, 1 - b.probability), (b.payout, b.probability)] := by
  have h0 : ¬ ((0 : ℚ) = b.payout) := fun hh => h hh.symm
  simp [betTwoPointMap, mapSet, h0]

theorem integrateOverPmf_conv_fold (g : ℚ → ℚ) (bets : List PositionModel) :
    (∀ b ∈ bets, b.payout ≠ 0) →
    ∀ acc : PMF,
      integrateOverPmf g
          (bets.foldl (fun c b => convolveDistributions c (betTwoPointMap b)) acc) =
        qsum acc (fun p => p.2 * expectPayout bets (fun x => g (p.1 + x))) := by
  induction bets with
  | nil =>
    intro _ acc
    rw [List.foldl_nil, integrateOverPmf_eq_qsum]
    refine qsum_congr ?_
    intro p _
    simp only [expectPayout, add_zero]
    ring
  | cons b bs ih =>
    intro hb acc
    have hbp : b.payout ≠ 0 := hb b (List.mem_cons_self b bs)
    have hbs : ∀ x ∈ bs, x.payout ≠ 0 := fun x hx => hb x (List.mem_cons_of_mem b hx)
    rw [List.foldl_cons, ih hbs]
    have key : qsum (convolveDistributions acc (betTwoPointMap b))
          (fun p => p.2 * expectPayout bs (fun x => g (p.1 + x))) =
        integrateOverPmf (fun a => expectPayout bs (fun x => g (a + x)))
          (convolveDistributions acc (betTwoPointMap b)) := by
      rw [integrateOverPmf_eq_qsum]
      exact qsum_congr fun p _ => by ring
    rw [key, integrateOverPmf_convolve, betTwoPointMap_of_payout_ne b hbp]
    refine qsum_congr ?_
    intro p _
    simp only [qsum_cons, qsum_nil, expectPayout]
    simp only [add_assoc, add_zero]
    ring

theorem integrateOverPmf_convolution (g : ℚ → ℚ) (bets : List PositionModel)
    (h : ∀ b ∈ bets, b.payout ≠ 0) :
    integrateOverPmf g (computePayoutPMFConvolution bets) = expectPayout bets g := by
  unfold computePayoutPMFConvolution
  rw [integrateOverPmf_conv_fold g bets h]
  show qsum [((0 : ℚ), (1 : ℚ))] _ = _
  rw [qsum_cons, qsum_nil]
  simp only [one_mul, add_zero]
  exact congrArg (expectPayout bets) (funext fun x => by rw [zero_add])

theorem pmfMassSum_eq_integrate_one (m : PMF) :
    pmfMassSum m = integrateOverPmf (fun _ => 1) m := by
  rw [integrateOverPmf_eq_qsum]
  induction m with
  | nil => rfl
  | cons p rest ih =>
    simp only [pmfMassSum, List.map_cons, List.sum_cons] at *
    rw [qsum_cons, ih]
    ring

theorem expectPayout_const_one (bets : List PositionModel) :
    expectPayout bets (fun _ => 1) = 1 := by
  induction bets with
  | nil => rfl
  | cons b bs ih =>
    simp only [expectPayout]
    rw [ih]
    ring

/-! ## Key membership of the two PMF constructions -/

theorem mem_pmfKeys_foldl_addTo (l : List (ℚ × ℚ)) (k : ℚ) :
    ∀ acc : PMF,
      k ∈ pmfKeys (l.foldl (fun m o => addTo m o.1 o.2) acc) ↔
        k ∈ pmfKeys acc ∨ k ∈ l.map Prod.fst := by
  induction l with
  | nil => intro acc; simp
  | cons o rest ih =>
    intro acc
    rw [List.foldl_cons, ih, mem_pmfKeys_addTo]
    simp only [List.map_cons, List.mem_cons]
    tauto

theorem mem_pmfKeys_convolve_inner (p1 : ℚ × ℚ) (m2 : PMF) (k : ℚ) :
    ∀ acc : PMF,
      k ∈ pmfKeys (m2.foldl (fun r p2 => addTo r (p1.1 + p2.1) (p1.2 * p2.2)) acc) ↔
        k ∈ pmfKeys acc ∨ ∃ p2 ∈ m2, k = p1.1 + p2.1 := by
  induction m2 with
  | nil => intro acc; simp
  | cons p2 rest ih =>
    intro acc
    rw [List.foldl_cons, ih, mem_pmfKeys_addTo]
    simp only [List.mem_cons]
    constructor
    · rintro ((h | h) | ⟨q, hq, hk⟩)
      · exact Or.inl h
      · exact Or.inr ⟨p2, Or.inl rfl, h⟩
      · exact Or.inr ⟨q, Or.inr hq, hk⟩
    · rintro (h | ⟨q, (rfl | hq), hk⟩)
      · exact Or.inl (Or.inl h)
      · exact Or.inl (Or.inr hk)
      · exact Or.inr ⟨q, hq, hk⟩

theorem mem_pmfKeys_convolve (m1 m2 : PMF) (k : ℚ) :
    k ∈ pmfKeys (convolveDistributions m1 m2) ↔
      ∃ p1 ∈ m1, ∃ p2 ∈ m2, k = p1.1 + p2.1 := by
  unfold convolveDistributions
  suffices h : ∀ acc : PMF,
      k ∈ pmfKeys (m1.foldl
          (fun result p1 =>
            m2.foldl (fun result p2 => addTo result (p1.1 + p2.1) (p1.2 * p2.2)) result)
          acc) ↔
        k ∈ pmfKeys acc ∨ ∃ p1 ∈ m1, ∃ p2 ∈ m2, k = p1.1 + p2.1 by
    rw [h []]
    simp [pmfKeys]
  induction m1 with
  | nil => intro acc; simp
  | cons p1 rest ih =>
    intro acc
    rw [List.foldl_cons, ih, mem_pmfKeys_convolve_inner]
    simp only [List.mem_cons]
    constructor
    · rintro ((h | ⟨q2, hq2, hk⟩) | ⟨q1, hq1, q2, hq2, hk⟩)
      · exact Or.inl h
      · exact Or.inr ⟨p1, Or.inl rfl, q2, hq2, hk⟩
      · exact Or.inr ⟨q1, Or.inr hq1, q2, hq2, hk⟩
    · rintro (h | ⟨q1, (rfl | hq1), q2, hq2, hk⟩)
      · exact Or.inl (Or.inl h)
      · exact Or.inl (Or.inr ⟨q2, hq2, hk⟩)
      · exact Or.inr ⟨q1, hq1, q2, hq2, hk⟩

theorem mem_map_comboPayout_cartFold (bets : List PositionModel) (k : ℚ) :
    ∀ acc : List (List Branch),
      k ∈ (bets.foldl
            (fun results bet =>
              results.flatMap (fun result => (betBranches bet).map (fun entry => result ++ [entry])))
            acc).map comboPayout ↔
        ∃ c ∈ acc, ∃ s ∈ payoutSums bets, k = comboPayout c + s := by
  induction bets with
  | nil =>
    intro acc
    simp only [List.foldl_nil, payoutSums, List.mem_singleton, List.mem_map]
    constructor
    · rintro ⟨c, hc, rfl⟩
      exact ⟨c, hc, 0, rfl, (add_zero _).symm⟩
    · rintro ⟨c, hc, s, rfl, rfl⟩
      exact ⟨c, hc, (add_zero _).symm⟩
  | cons b bs ih =>
    intro acc
    rw [List.foldl_cons, ih]
    constructor
    · rintro ⟨c', hc', s, hs, rfl⟩
      rw [List.mem_flatMap] at hc'
      obtain ⟨c, hc, hmem⟩ := hc'
      rw [List.mem_map] at hmem
      obtain ⟨e, he, rfl⟩ := hmem
      simp only [betBranches, List.mem_cons, List.mem_singleton, List.not_mem_nil,
        or_false] at he
      rcases he with rfl | rfl
      · refine ⟨c, hc, s, ?_, ?_⟩
        · show s ∈ payoutSums (b :: bs)
          simp only [payoutSums, List.mem_append]
          exact Or.inl hs
        · rw [comboPayout_append]
          simp
      · refine ⟨c, hc, b.payout + s, ?_, ?_⟩
        · show b.payout + s ∈ payoutSums (b :: bs)
          simp only [payoutSums, List.mem_append, List.mem_map]
          exact Or.inr ⟨s, hs, rfl⟩
        · rw [comboPayout_append]
          ring
    · rintro ⟨c, hc, s', hs', rfl⟩
      simp only [payoutSums, List.mem_append, List.mem_map] at hs'
      rcases hs' with hs | ⟨t, ht, rfl⟩
      · refine ⟨c ++ [((0 : ℚ), 1 - b.probability)], ?_, s', hs, ?_⟩
        · rw [List.mem_flatMap]
          refine ⟨c, hc, List.mem_map.mpr ⟨(0, 1 - b.probability), ?_, rfl⟩⟩
          simp [betBranches]
        · rw [comboPayout_append]
          simp
      · refine ⟨c ++ [(b.payout, b.probability)], ?_, t, ht, ?_⟩
        · rw [List.mem_flatMap]
          refine ⟨c, hc, List.mem_map.mpr ⟨(b.payout, b.probability), ?_, rfl⟩⟩
          simp [betBranches]
        · rw [comboPayout_append]
          ring

theorem mem_pmfKeys_cartesian (bets : List PositionModel) (k : ℚ) :
    k ∈ pmfKeys (computePayoutPMFCartesian bets) ↔ k ∈ payoutSums bets := by
  simp only [computePayoutPMFCartesian, cartesianProduct]
  rw [mem_pmfKeys_foldl_addTo]
  simp only [pmfKeys, List.map_nil, List.not_mem_nil, false_or, List.map_map]
  have hcomp :
      (Prod.fst ∘ fun o : List Branch => (comboPayout o, comboProb o)) = comboPayout := by
    funext o
    rfl
  rw [hcomp]
  simp only [List.foldl_map]
  rw [mem_map_comboPayout_cartFold]
  simp only [List.mem_singleton]
  constructor
  · rintro ⟨c, rfl, s, hs, rfl⟩
    simpa [comboPayout] using hs
  · intro hk
    exact ⟨[], rfl, k, hk, by simp [comboPayout]⟩

theorem mem_pmfKeys_conv_fold (bets : List PositionModel) (k : ℚ) :
    (∀ b ∈ bets, b.payout ≠ 0) →
    ∀ acc : PMF,
      k ∈ pmfKeys (bets.foldl (fun c b => convolveDistributions c (betTwoPointMap b)) acc) ↔
        ∃ p ∈ acc, ∃ s ∈ payoutSums bets, k = p.1 + s := by
  induction bets with
  | nil =>
    intro _ acc
    simp only [List.foldl_nil, payoutSums, List.mem_singleton, pmfKeys, List.mem_map]
    constructor
    · rintro ⟨p, hp, rfl⟩
      exact ⟨p, hp, 0, rfl, (add_zero _).symm⟩
    · rintro ⟨p, hp, s, rfl, rfl⟩
      exact ⟨p, hp, (add_zero _).symm⟩
  | cons b bs ih =>
    intro hb acc
    have hbp : b.payout ≠ 0 := hb b (List.mem_cons_self b bs)
    have hbs : ∀ x ∈ bs, x.payout ≠ 0 := fun x hx => hb x (List.mem_cons_of_mem b hx)
    rw [List.foldl_cons, ih hbs]
    constructor
    · rintro ⟨p', hp', s, hs, rfl⟩
      have hkey : p'.1 ∈ pmfKeys (convolveDistributions acc (betTwoPointMap b)) :=
        List.mem_map_of_mem Prod.fst hp'
      rw [mem_pmfKeys_convolve] at hkey
      obtain ⟨p1, hp1, p2, hp2, hk⟩ := hkey
      rw [betTwoPointMap_of_payout_ne b hbp] at hp2
      simp only [List.mem_cons, List.mem_singleton, List.not_mem_nil, or_false] at hp2
      rcases hp2 with rfl | rfl
      · refine ⟨p1, hp1, s, ?_, ?_⟩
        · show s ∈ payoutSums (b :: bs)
          simp only [payoutSums, List.mem_append]
          exact Or.inl hs
        · rw [hk]
          simp
      · refine ⟨p1, hp1, b.payout + s, ?_, ?_⟩
        · show b.payout + s ∈ payoutSums (b :: bs)
          simp only [payoutSums, List.mem_append, List.mem_map]
          exact Or.inr ⟨s, hs, rfl⟩
        · rw [hk]
          ring
    · rintro ⟨p, hp, s', hs', rfl⟩
      simp only [payoutSums, List.mem_append, List.mem_map] at hs'
      rcases hs' with hs | ⟨t, ht, rfl⟩
      · have hkey : p.1 + 0 ∈ pmfKeys (convolveDistributions acc (betTwoPointMap b)) := by
          rw [mem_pmfKeys_convolve]
          refine ⟨p, hp, (0, 1 - b.probability), ?_, rfl⟩
          rw [betTwoPointMap_of_payout_ne b hbp]
          simp
        obtain ⟨p', hp', hfst⟩ := List.mem_map.mp hkey
        refine ⟨p', hp', s', hs, ?_⟩
        rw [hfst]
        simp
      · have hkey : p.1 + b.payout ∈ pmfKeys (convolveDistributions acc (betTwoPointMap b)) := by
          rw [mem_pmfKeys_convolve]
          refine ⟨p, hp, (b.payout, b.probability), ?_, rfl⟩
          rw [betTwoPointMap_of_payout_ne b hbp]
          simp
        obtain ⟨p', hp', hfst⟩ := List.mem_map.mp hkey
        refine ⟨p', hp', t, ht, ?_⟩
        rw [hfst]
        ring

theorem mem_pmfKeys_convolution (bets : List PositionModel)
    (h : ∀ b ∈ bets, b.payout ≠ 0) (k : ℚ) :
    k ∈ pmfKeys (computePayoutPMFConvolution bets) ↔ k ∈ payoutSums bets := by
  unfold computePayoutPMFConvolution
  rw [mem_pmfKeys_conv_fold bets k h]
  show (∃ p ∈ [((0 : ℚ), (1 : ℚ))], ∃ s ∈ payoutSums bets, k = p.1 + s) ↔ _
  simp only [List.mem_singleton]
  constructor
  · rintro ⟨p, rfl, s, hs, rfl⟩
    simpa using hs
  · intro hk
    exact ⟨(0, 1), rfl, k, hk, by simp⟩

/-! ## Root-finder clamping invariant (shared helper) -/

/-- Every iterate of `findRootGo` that starts inside `[lowerBound, upperBound]`
stays inside: an out-of-range Newton step is clamped to the nearest bound
before the convergence check and before becoming the next iterate. -/
theorem findRootGo_mem (f : ℚ → ℚ) (lb ub tol : ℚ) :
    ∀ (n : ℕ) (x : ℚ), lb ≤ x → x ≤ ub →
      lb ≤ findRootGo f lb ub tol n x ∧ findRootGo f lb ub tol n x ≤ ub := by
  intro n
  induction n with
  | zero => exact fun x h1 h2 => ⟨h1, h2⟩
  | succ n ih =>
    intro x h1 h2
    have hlbub : lb ≤ ub := le_trans h1 h2
    simp only [findRootGo]
    by_cases hout : x - f x / D f x (1 / 1000) < lb ∨ x - f x / D f x (1 / 1000) > ub
    · simp only [if_pos hout]
      by_cases hlow : x - f x / D f x (1 / 1000) < lb
      · simp only [if_pos hlow]
        split
        · exact ⟨le_refl lb, hlbub⟩
        · exact ih lb (le_refl lb) hlbub
      · simp only [if_neg hlow]
        split
        · exact ⟨hlbub, le_refl ub⟩
        · exact ih ub hlbub (le_refl ub)
    · simp only [if_neg hout]
      push_neg at hout
      split
      · exact ⟨hout.1, hout.2⟩
      · exact ih _ hout.1 hout.2

/-- `findRoot` returns a value inside `[lowerBound, upperBound]` whenever the
interval is nonempty. -/
theorem findRoot_mem (f : ℚ → ℚ) (lb ub : ℚ) (n : ℕ) (tol : ℚ) (h : lb ≤ ub) :
    lb ≤ findRoot f lb ub n tol ∧ findRoot f lb ub n tol ≤ ub := by
  refine findRootGo_mem f lb ub tol n ((lb + ub) / 2) ?_ ?_ <;> linarith

/-! ## Claims -/

/-- C3: for every value `v > 0` and every pair of odds representations,
converting `v` there and back with `convertOdds` yields `v` again (exactly, in
rational arithmetic). -/
theorem convertOdds_round_trip (src tgt : OddsType) (v : ℚ) (hv : 0 < v) :
    convertOdds tgt src (convertOdds src tgt v) = v := by
  have hv0 : v ≠ 0 := ne_of_gt hv
  have hv1 : v + 1 ≠ 0 := by positivity
  cases src <;> cases tgt <;>
    simp only [convertOdds, reduceCtorEq, if_false, if_true, ite_self, reduceIte] <;>
    field_simp

/-- C3 witness: the round trip at the concrete value 5, decimal odds to
English odds and back. -/
theorem convertOdds_round_trip_witness :
    (0 : ℚ) < 5 ∧
      convertOdds .englishOdds .decimalOdds
        (convertOdds .decimalOdds .englishOdds 5) = 5 :=
  ⟨by norm_num, convertOdds_round_trip .decimalOdds .englishOdds 5 (by norm_num)⟩

/-- C4: for market probability in (0,1), estimate in [0,1] and deference in
[0,1], the naive Kelly fraction equals
`deferenceFactor * |estimatedProb - marketProb| / (1 - marketProb)` clamped
into [0,1] (hence lies in [0,1]), and the outcome is YES iff the estimate
exceeds the market probability. -/
theorem naiveKellyFraction_spec (marketProb estimatedProb deferenceFactor : ℚ)
    (h1 : 0 < marketProb) (h2 : marketProb < 1)
    (h3 : 0 ≤ estimatedProb) (h4 : estimatedProb ≤ 1)
    (h5 : 0 ≤ deferenceFactor) (h6 : deferenceFactor ≤ 1) :
    (calculateNaiveKellyFraction marketProb estimatedProb deferenceFactor).1 =
      min (max (deferenceFactor * (|estimatedProb - marketProb| / (1 - marketProb))) 0) 1 ∧
    0 ≤ (calculateNaiveKellyFraction marketProb estimatedProb deferenceFactor).1 ∧
    (calculateNaiveKellyFraction marketProb estimatedProb deferenceFactor).1 ≤ 1 ∧
    ((calculateNaiveKellyFraction marketProb estimatedProb deferenceFactor).2 = Outcome.YES ↔
      marketProb < estimatedProb) := by
  refine ⟨rfl, le_min (le_max_right _ _) zero_le_one, min_le_right _ _, ?_⟩
  simp only [calculateNaiveKellyFraction]
  split
  · simp only [true_iff]; assumption
  · simp only [reduceCtorEq, false_iff, not_lt]; linarith [not_lt.mp (by assumption)]

/-- C4 witness: the specification instantiated at the spec's own worked
example, market probability 0.4, estimate 0.6, deference 0.5. -/
theorem naiveKellyFraction_spec_witness :
    (0 : ℚ) < 2/5 ∧ (2/5 : ℚ) < 1 ∧ (0 : ℚ) ≤ 3/5 ∧ (3/5 : ℚ) ≤ 1 ∧
      (0 : ℚ) ≤ 1/2 ∧ (1/2 : ℚ) ≤ 1 ∧
      (0 ≤ (calculateNaiveKellyFraction (2/5) (3/5) (1/2)).1 ∧
        (calculateNaiveKellyFraction (2/5) (3/5) (1/2)).1 ≤ 1) :=
  ⟨by norm_num, by norm_num, by norm_num, by norm_num, by norm_num, by norm_num,
    ⟨(naiveKellyFraction_spec (2/5) (3/5) (1/2) (by norm_num) (by norm_num)
        (by norm_num) (by norm_num) (by norm_num) (by norm_num)).2.1,
      (naiveKellyFraction_spec (2/5) (3/5) (1/2) (by norm_num) (by norm_num)
        (by norm_num) (by norm_num) (by norm_num) (by norm_num)).2.2.1⟩⟩

unseal Rat.add Rat.mul Rat.sub Rat.inv in
/-- C5: `findRoot` on `f(x) = x - 3` over `[0, 10]` with the source defaults
(10 iterations, tolerance 1e-6) returns a value within 1e-6 of 3 — in fact
exactly 3 — and already 2 iterations produce the same answer, well under the
iteration cap. -/
theorem findRoot_linear_converges :
    |findRoot (fun x => x - 3) 0 10 10 (1 / 1000000) - 3| < 1 / 1000000 ∧
      findRoot (fun x => x - 3) 0 10 2 (1 / 1000000) =
        findRoot (fun x => x - 3) 0 10 10 (1 / 1000000) := by
  constructor <;> decide

/-- C6: `findRoot` on `f(x) = x + 100` over `[0, 10]` never returns a value
outside `[0, 10]`, for every iteration count and tolerance, because every
Newton step that would leave the interval is clamped to the nearest bound
before the convergence check and before becoming the next iterate. -/
theorem findRoot_clamps_to_bounds :
    ∀ (n : ℕ) (tol : ℚ),
      0 ≤ findRoot (fun x => x + 100) 0 10 n tol ∧
        findRoot (fun x => x + 100) 0 10 n tol ≤ 10 :=
  fun n tol => findRoot_mem (fun x => x + 100) 0 10 n tol (by norm_num)

unseal Rat.add Rat.mul Rat.sub Rat.inv in
/-- C7 counterexample: for the single position `{probability: 1/3, payout: 0}`
(probability in [0,1]), the convolution method loses mass: its two-point map
`new Map([[0, 1 - p], [payout, p]])` collapses to the single entry `[(0, p)]`
when `payout = 0`, so the masses sum to 1/3, not 1. -/
theorem pmf_mass_sum_counterexample :
    (0 : ℚ) ≤ 1/3 ∧ (1/3 : ℚ) ≤ 1 ∧
      pmfMassSum (computePayoutDistribution
        [{ probability := 1/3, payout := 0, loan := none }] .convolution) ≠ 1 := by
  refine ⟨by norm_num, by norm_num, ?_⟩
  decide

unseal Rat.add Rat.mul Rat.sub Rat.inv in
/-- C2 counterexample: for the single position `{probability: 1/3, payout: 0}`
(probability in [0,1]), the two methods return different PMFs at the payout
key 0: the cartesian method returns mass 1 there, while the convolution
method's two-point `Map` constructor collapses its duplicate key 0 and returns
mass 1/3. -/
theorem pmf_methods_disagree_counterexample :
    (0 : ℚ) ≤ 1/3 ∧ (1/3 : ℚ) ≤ 1 ∧
      mapGet (computePayoutDistribution
          [{ probability := 1/3, payout := 0, loan := none }] .cartesian) 0 ≠
        mapGet (computePayoutDistribution
          [{ probability := 1/3, payout := 0, loan := none }] .convolution) 0 := by
  refine ⟨by norm_num, by norm_num, ?_⟩
  decide

/-- C2 (amended): for every list of positions in which every payout is
nonzero, the cartesian and the convolution methods of
`computePayoutDistribution` return maps that agree at every payout key — the
same keys are present, each carrying exactly the same probability mass; a
zero-payout position breaks the agreement. -/
theorem pmf_methods_agree (bets : List PositionModel)
    (h : ∀ b ∈ bets, b.payout ≠ 0) (k : ℚ) :
    mapGet (computePayoutDistribution bets .cartesian) k =
      mapGet (computePayoutDistribution bets .convolution) k := by
  simp only [computePayoutDistribution]
  by_cases hk : k ∈ payoutSums bets
  · have h1 : (mapGet (computePayoutPMFCartesian bets) k).isSome :=
      (mapGet_isSome_iff_mem _ _).mpr ((mem_pmfKeys_cartesian bets k).mpr hk)
    have h2 : (mapGet (computePayoutPMFConvolution bets) k).isSome :=
      (mapGet_isSome_iff_mem _ _).mpr ((mem_pmfKeys_convolution bets h k).mpr hk)
    obtain ⟨v1, hv1⟩ := Option.isSome_iff_exists.mp h1
    obtain ⟨v2, hv2⟩ := Option.isSome_iff_exists.mp h2
    have hval : mapGetD (computePayoutPMFCartesian bets) k =
        mapGetD (computePayoutPMFConvolution bets) k := by
      rw [mapGetD_eq_integrate_ind _ _ (WFpmf_cartesian bets),
        mapGetD_eq_integrate_ind _ _ (WFpmf_convolution bets),
        integrateOverPmf_cartesian, integrateOverPmf_convolution _ _ h]
    have e1 : v1 = mapGetD (computePayoutPMFCartesian bets) k := by
      rw [mapGetD, hv1, Option.getD_some]
    have e2 : v2 = mapGetD (computePayoutPMFConvolution bets) k := by
      rw [mapGetD, hv2, Option.getD_some]
    rw [hv1, hv2, e1, e2, hval]
  · have h1 : mapGet (computePayoutPMFCartesian bets) k = none := by
      rw [← Option.not_isSome_iff_eq_none]
      intro hs
      exact hk ((mem_pmfKeys_cartesian bets k).mp ((mapGet_isSome_iff_mem _ _).mp hs))
    have h2 : mapGet (computePayoutPMFConvolution bets) k = none := by
      rw [← Option.not_isSome_iff_eq_none]
      intro hs
      exact hk ((mem_pmfKeys_convolution bets h k).mp ((mapGet_isSome_iff_mem _ _).mp hs))
    rw [h1, h2]

/-- C2 (amended) witness: the two methods agree at the key 12 for the
two-position list `[{1/3, 5}, {1/2, 7}]` whose payouts are nonzero. -/
theorem pmf_methods_agree_witness :
    (∀ b ∈ [({ probability := 1/3, payout := 5, loan := none } : PositionModel),
        { probability := 1/2, payout := 7, loan := none }], b.payout ≠ 0) ∧
      mapGet (computePayoutDistribution
          [({ probability := 1/3, payout := 5, loan := none } : PositionModel),
            { probability := 1/2, payout := 7, loan := none }] .cartesian) 12 =
        mapGet (computePayoutDistribution
          [({ probability := 1/3, payout := 5, loan := none } : PositionModel),
            { probability := 1/2, payout := 7, loan := none }] .convolution) 12 := by
  have hpay : ∀ b ∈ [({ probability := 1/3, payout := 5, loan := none } : PositionModel),
      { probability := 1/2, payout := 7, loan := none }], b.payout ≠ 0 := by
    intro b hb
    simp only [List.mem_cons, List.mem_singleton, List.not_mem_nil, or_false] at hb
    rcases hb with rfl | rfl <;> norm_num
  exact ⟨hpay, pmf_methods_agree _ hpay 12⟩

/-- C7 (amended): the masses of the PMF returned by
`computePayoutDistribution` sum to exactly 1 for the cartesian method for
every list of positions, and for the convolution method whenever every
position has nonzero payout; a zero-payout position makes the convolution
method lose mass. -/
theorem pmf_mass_sums_to_one (bets : List PositionModel) :
    pmfMassSum (computePayoutDistribution bets .cartesian) = 1 ∧
      ((∀ b ∈ bets, b.payout ≠ 0) →
        pmfMassSum (computePayoutDistribution bets .convolution) = 1) := by
  constructor
  · simp only [computePayoutDistribution]
    rw [pmfMassSum_eq_integrate_one, integrateOverPmf_cartesian, expectPayout_const_one]
  · intro h
    simp only [computePayoutDistribution]
    rw [pmfMassSum_eq_integrate_one, integrateOverPmf_convolution _ _ h,
      expectPayout_const_one]

/-- C7 witness: both mass sums equal 1 at the concrete position list
`[{probability: 1/3, payout: 5}]`. -/
theorem pmf_mass_sums_to_one_witness :
    (∀ b ∈ [({ probability := 1/3, payout := 5, loan := none } : PositionModel)],
        b.payout ≠ 0) ∧
      pmfMassSum (computePayoutDistribution
        [{ probability := 1/3, payout := 5, loan := none }] .cartesian) = 1 ∧
      pmfMassSum (computePayoutDistribution
        [{ probability := 1/3, payout := 5, loan := none }] .convolution) = 1 := by
  have hpay : ∀ b ∈ [({ probability := 1/3, payout := 5, loan := none } : PositionModel)],
      b.payout ≠ 0 := by
    intro b hb
    rw [List.mem_singleton] at hb
    rw [hb]
    norm_num
  exact ⟨hpay, (pmf_mass_sums_to_one _).1, (pmf_mass_sums_to_one _).2 hpay⟩

/-- C8: when the starting market probability cannot be obtained from the
external collaborator, both optimizers short-circuit and return the defined
degenerate output `amount = 0, outcome = YES, shares = 0, pAfter = 0` instead
of throwing. -/
theorem unavailable_prob_degenerate (env : MarketEnv)
    (estimatedProb deferenceFactor bankroll balance portfolioValue : ℚ)
    (h : env.marketProb = none) :
    calculateFullKellyBet env estimatedProb deferenceFactor bankroll =
      ⟨0, .YES, 0, 0⟩ ∧
    calculateFullKellyBetWithPortfolio env estimatedProb deferenceFactor balance
        portfolioValue = ⟨0, .YES, 0, 0⟩ := by
  constructor
  · simp only [calculateFullKellyBet, h]
  · simp only [calculateFullKellyBetWithPortfolio, h]

/-- C8 witness: the degenerate result at a concrete environment with an
unavailable market probability. -/
theorem unavailable_prob_degenerate_witness :
    noProbEnv.marketProb = none ∧
      calculateFullKellyBet noProbEnv (1/2) (1/2) 100 = ⟨0, .YES, 0, 0⟩ ∧
      calculateFullKellyBetWithPortfolio noProbEnv (1/2) (1/2) 100 250 =
        ⟨0, .YES, 0, 0⟩ :=
  ⟨rfl,
    (unavailable_prob_degenerate noProbEnv (1/2) (1/2) 100 100 250 rfl).1,
    (unavailable_prob_degenerate noProbEnv (1/2) (1/2) 100 100 250 rfl).2⟩

/-- C9: the result of `calculateFullKellyBetWithPortfolio` is independent of
its `portfolioValue` argument: two calls differing only in `portfolioValue`
return identical results, because the illiquid expected value is the
hard-coded constant 1000. -/
theorem portfolioValue_is_ignored (env : MarketEnv)
    (estimatedProb deferenceFactor balance v1 v2 : ℚ) :
    calculateFullKellyBetWithPortfolio env estimatedProb deferenceFactor balance v1 =
      calculateFullKellyBetWithPortfolio env estimatedProb deferenceFactor balance v2 :=
  rfl

/-- C10: when the fetched starting market probability is present but exactly
0, the falsy guard fires and both optimizers return the same degenerate output
as in the unavailable case. -/
theorem zero_prob_degenerate (env : MarketEnv)
    (estimatedProb deferenceFactor bankroll balance portfolioValue : ℚ)
    (h : env.marketProb = some 0) :
    calculateFullKellyBet env estimatedProb deferenceFactor bankroll =
      ⟨0, .YES, 0, 0⟩ ∧
    calculateFullKellyBetWithPortfolio env estimatedProb deferenceFactor balance
        portfolioValue = ⟨0, .YES, 0, 0⟩ := by
  constructor
  · simp [calculateFullKellyBet, h]
  · simp [calculateFullKellyBetWithPortfolio, h]

/-- The counterexample odds curve is monotonically worsening: a larger bet
never gets better marginal English odds. -/
theorem cexOdds_antitone (a b : ℚ) (hab : a ≤ b) : cexOdds b ≤ cexOdds a := by
  unfold cexOdds
  split_ifs <;> norm_num <;> linarith

/-- The counterexample odds curve always offers strictly positive English
odds. -/
theorem cexOdds_pos (b : ℚ) : 0 < cexOdds b := by
  unfold cexOdds
  split_ifs <;> norm_num

unseal Rat.add Rat.mul Rat.sub Rat.inv in
/-- C1 counterexample: at the concrete well-formed inputs
`estimatedProb = 3/5`, `deferenceFactor = 1/2`, market probability `1/5`,
`balance = 1000000`, against the monotonically worsening AMM odds curve
`cexOdds` (and with the positive hard-coded illiquid EV 1000), the claimed
ordering fails: the true-integrated Newton search gets thrown against its
clamped lower bound by a liquidity cliff and returns
`optimalBet = 229427.175... < optimalBetInitial = 3200000/13 = 246153.846...`. -/
theorem portfolio_ordering_counterexample :
    ¬ (optimalBetInitial cexEnv (6/10) (1/2) (1/5) 1000000 ≤
         optimalBet cexEnv (6/10) (1/2) (1/5) 1000000 ∧
       optimalBet cexEnv (6/10) (1/2) (1/5) 1000000 ≤
         optimalBetHigh cexEnv (6/10) (1/2) (1/5) 1000000) := by
  decide

/-- C1 (amended): the three root-find results always lie inside their search
intervals — `optimalBetInitial` in `[0, naiveKellyAmount]` and both
`optimalBet` and `optimalBetHigh` in
`[optimalBetInitial / 2, 2 * optimalBetInitial]` — for every environment and
every nonnegative balance; the exact ordering
`optimalBetInitial ≤ optimalBet ≤ optimalBetHigh` itself can fail. -/
theorem portfolio_roots_interval_bounds (env : MarketEnv)
    (estimatedProb deferenceFactor startingMarketProb balance : ℚ)
    (hb : 0 ≤ balance) :
    (0 ≤ optimalBetInitial env estimatedProb deferenceFactor startingMarketProb balance ∧
      optimalBetInitial env estimatedProb deferenceFactor startingMarketProb balance ≤
        (calculateNaiveKellyBet startingMarketProb estimatedProb deferenceFactor balance).1) ∧
    (optimalBetInitial env estimatedProb deferenceFactor startingMarketProb balance * (1/2) ≤
        optimalBet env estimatedProb deferenceFactor startingMarketProb balance ∧
      optimalBet env estimatedProb deferenceFactor startingMarketProb balance ≤
        optimalBetInitial env estimatedProb deferenceFactor startingMarketProb balance * 2) ∧
    (optimalBetInitial env estimatedProb deferenceFactor startingMarketProb balance * (1/2) ≤
        optimalBetHigh env estimatedProb deferenceFactor startingMarketProb balance ∧
      optimalBetHigh env estimatedProb deferenceFactor startingMarketProb balance ≤
        optimalBetInitial env estimatedProb deferenceFactor startingMarketProb balance * 2) := by
  have hnaive : 0 ≤ (calculateNaiveKellyBet startingMarketProb estimatedProb deferenceFactor balance).1 := by
    simp only [calculateNaiveKellyBet, calculateNaiveKellyFraction]
    exact mul_nonneg hb (le_min (le_max_right _ _) zero_le_one)
  have hinit :
      0 ≤ optimalBetInitial env estimatedProb deferenceFactor startingMarketProb balance ∧
        optimalBetInitial env estimatedProb deferenceFactor startingMarketProb balance ≤
          (calculateNaiveKellyBet startingMarketProb estimatedProb deferenceFactor balance).1 := by
    simp only [optimalBetInitial]
    exact findRoot_mem _ _ _ _ _ hnaive
  have hlb2 :
      optimalBetInitial env estimatedProb deferenceFactor startingMarketProb balance * (1/2) ≤
        optimalBetInitial env estimatedProb deferenceFactor startingMarketProb balance * 2 :=
    mul_le_mul_of_nonneg_left (by norm_num) hinit.1
  refine ⟨hinit, ?_, ?_⟩
  · simp only [optimalBet]
    exact findRoot_mem _ _ _ _ _ hlb2
  · simp only [optimalBetHigh]
    exact findRoot_mem _ _ _ _ _ hlb2

/-- C1 (amended) witness: the interval bounds instantiated at the concrete
counterexample environment. -/
theorem portfolio_roots_interval_bounds_witness :
    (0 : ℚ) ≤ 1000000 ∧
      ((0 ≤ optimalBetInitial cexEnv (6/10) (1/2) (1/5) 1000000 ∧
          optimalBetInitial cexEnv (6/10) (1/2) (1/5) 1000000 ≤
            (calculateNaiveKellyBet (1/5) (6/10) (1/2) 1000000).1) ∧
        (optimalBetInitial cexEnv (6/10) (1/2) (1/5) 1000000 * (1/2) ≤
            optimalBet cexEnv (6/10) (1/2) (1/5) 1000000 ∧
          optimalBet cexEnv (6/10) (1/2) (1/5) 1000000 ≤
            optimalBetInitial cexEnv (6/10) (1/2) (1/5) 1000000 * 2) ∧
        (optimalBetInitial cexEnv (6/10) (1/2) (1/5) 1000000 * (1/2) ≤
            optimalBetHigh cexEnv (6/10) (1/2) (1/5) 1000000 ∧
          optimalBetHigh cexEnv (6/10) (1/2) (1/5) 1000000 ≤
            optimalBetInitial cexEnv (6/10) (1/2) (1/5) 1000000 * 2)) :=
  ⟨by norm_num,
    portfolio_roots_interval_bounds cexEnv (6/10) (1/2) (1/5) 1000000 (by norm_num)⟩

/-- C10 witness: the degenerate result at a concrete environment whose market
probability is exactly 0. -/
theorem zero_prob_degenerate_witness :
    zeroProbEnv.marketProb = some 0 ∧
      calculateFullKellyBet zeroProbEnv (1/2) (1/2) 100 = ⟨0, .YES, 0, 0⟩ ∧
      calculateFullKellyBetWithPortfolio zeroProbEnv (1/2) (1/2) 100 250 =
        ⟨0, .YES, 0, 0⟩ :=
  ⟨rfl,
    (zero_prob_degenerate zeroProbEnv (1/2) (1/2) 100 100 250 rfl).1,
    (zero_prob_degenerate zeroProbEnv (1/2) (1/2) 100 100 250 rfl).2⟩

end Manifolio
